import Mathlib

/-!
# Verification of the chaotic-generator engine (CPSO/chaosGen.py)

Shallow embedding of `ChaosGenerator` and its three concrete variants
(`Logistic`, `Tent`, `Lorenz`) over exact rational arithmetic, together with
theorems settling the specification claims.

Modelling choices:
* The State Container `self.cgens` (a numpy array of shape
  `(gens,) + gshape`) is a `List (List γ)`: one inner list per generator
  slot, each slot carrying the flattened cells of the generator shape.
  Scalar maps (Logistic, Tent) have cells `γ = ℚ`; the Lorenz flow has
  3-dimensional cells `γ = ℚ × ℚ × ℚ`.
* numpy integer indexing, including Python negative indexing and the
  out-of-range `IndexError`, is `pyIdx`, returning `Option ℕ`.
* numpy elementwise arithmetic over a slot is `List.map`.
* The IEEE behaviour of float division by zero (signed infinity, `0/0 = NaN`)
  and of comparisons against `NaN`, which numpy exhibits in the Lorenz
  normalization, is captured by the type `Flt`.
* The scipy `odeint` one-macro-step advance of the Lorenz state is an
  external numeric solver; it enters the embedding as an abstract
  per-cell function `step : ℚ × ℚ × ℚ → ℚ × ℚ × ℚ`.
-/

namespace ChaosGen

/-- numpy integer indexing into an axis of length `n`: Python negative
indices count from the end; an index out of `[-n, n)` is an `IndexError`,
modelled as `none`. -/
def pyBase (n : ℕ) (i : ℤ) : ℤ := if i < 0 then i + n else i

def pyIdx (n : ℕ) (i : ℤ) : Option ℕ :=
  if 0 ≤ pyBase n i ∧ pyBase n i < n then some (pyBase n i).toNat else none

/-- The shared shape of all three `evolve` overrides
(`Logistic.evolve`, `Tent.evolve`, `Lorenz.evolve`): read slot `gind` of the
State Container, return an observation `ret` of each cell of the
pre-mutation slot, and overwrite the slot with `upd` applied to each cell.
`none` models the numpy `IndexError` on an out-of-range `gind`. -/
def evolveCellwise {γ α : Type} (ret : γ → α) (upd : γ → γ)
    (cgens : List (List γ)) (gind : ℤ) : Option (List α × List (List γ)) :=
  (pyIdx cgens.length gind).map fun g =>
    ((cgens.getD g []).map ret,
     cgens.set g ((cgens.getD g []).map upd))

/-- The logistic map `f(x) = r*x*(1-x)` (`Logistic.evolve`, line 110). -/
def logisticMap (r x : ℚ) : ℚ := r * x * (1 - x)

/-- The tent map `np.where(x <= mu, x/mu, (1-x)/(1-mu))`
(`Tent.evolve`, line 130), elementwise on one cell. -/
def tentMap (mu x : ℚ) : ℚ := if x ≤ mu then x / mu else (1 - x) / (1 - mu)

/-- Embeds `Logistic.evolve`: `ret = np.copy(cgens[gind])`;
`cgens[gind] = r*x*(1-x)` elementwise; return `ret`. -/
def logisticEvolve (r : ℚ) (cgens : List (List ℚ)) (gind : ℤ) :
    Option (List ℚ × List (List ℚ)) :=
  evolveCellwise id (logisticMap r) cgens gind

/-- Embeds `Tent.evolve`: `ret = np.copy(cgens[gind])`;
`cgens[gind] = np.where(x <= mu, x/mu, (1-x)/(1-mu))`; return `ret`. -/
def tentEvolve (mu : ℚ) (cgens : List (List ℚ)) (gind : ℤ) :
    Option (List ℚ × List (List ℚ)) :=
  evolveCellwise id (tentMap mu) cgens gind

/-- An IEEE-style scalar as numpy computes it in `Lorenz.evolve`:
either an exact finite value, a signed infinity (finite nonzero / 0),
or `NaN` (0 / 0). -/
inductive Flt : Type where
  | val : ℚ → Flt
  | pinf : Flt
  | ninf : Flt
  | nan : Flt
deriving DecidableEq

/-- Float division `num / den` as numpy performs it in the normalization
`(st - mn)/(mx - mn)`: ordinary division when the denominator is nonzero,
signed infinity or `NaN` when it is zero. -/
def fltDiv (num den : ℚ) : Flt :=
  if den = 0 then
    (if 0 < num then Flt.pinf else if num < 0 then Flt.ninf else Flt.nan)
  else Flt.val (num / den)

/-- The numpy comparison `x < 0` on a float: `False` on `NaN`. -/
def fltLtZero : Flt → Bool
  | Flt.val q => decide (q < 0)
  | Flt.pinf => false
  | Flt.ninf => true
  | Flt.nan => false

/-- The numpy comparison `x > 1` on a float: `False` on `NaN`. -/
def fltGtOne : Flt → Bool
  | Flt.val q => decide (1 < q)
  | Flt.pinf => true
  | Flt.ninf => false
  | Flt.nan => false

/-- The clamp constant `eps = 1e-5` of `Lorenz.evolve` (line 204). -/
def lorEps : ℚ := 1 / 100000

/-- The normalized, clamped scalar `Lorenz.evolve` computes from one cell's
exported coordinate (lines 207-213):
`np.where(n2 > 1, 1-eps, np.where(n1 < 0, eps, (st - mn)/(mx - mn)))`. -/
def lorenzScalar (mn mx st : ℚ) : Flt :=
  let n1 := fltDiv (st - mn) (mx - mn)
  let n2 := if fltLtZero n1 then Flt.val lorEps else n1
  if fltGtOne n2 then Flt.val (1 - lorEps) else n2

/-- A cell of the Lorenz state: one 3-dimensional flow state `(x, y, z)`. -/
def Vec3 : Type := ℚ × ℚ × ℚ

instance : DecidableEq Vec3 := by unfold Vec3; infer_instance

/-- Embeds `self.cgens[gind,...,self.comp]`: the exported coordinate of a cell. -/
def comp3 (c : Fin 3) (v : Vec3) : ℚ :=
  match c with
  | ⟨0, _⟩ => v.1
  | ⟨1, _⟩ => v.2.1
  | ⟨2, _⟩ => v.2.2

/-- Embeds `Lorenz.evolve`: normalize and clamp the `comp` coordinate of every cell
of slot `gind` against the cached limits `(mn, mx)` of that coordinate, then
advance every cell of the slot by one `odeint` macro-step (`evolveT`,
abstracted as `step`), and return the pre-advance normalized values. -/
def lorenzEvolve (step : Vec3 → Vec3) (mn mx : ℚ) (c : Fin 3)
    (cgens : List (List Vec3)) (gind : ℤ) :
    Option (List Flt × List (List Vec3)) :=
  evolveCellwise (fun v => lorenzScalar mn mx (comp3 c v)) step cgens gind

/-- Embeds `ChaosGenerator.getCgens`: `np.copy(self.cgens)` — a deep copy of the
State Container, which in a pure embedding is the container itself. -/
def getCgens {γ : Type} (cgens : List (List γ)) : List (List γ) := cgens

/-- Embeds `ChaosGenerator.chaosPoints`, branch `gno != 0` with `cascade=True`
(lines 65-69): `np.array([self.evolve(gno-1) for i in range(self.oshape[0])])`
— call `evolve (gno-1)` once per particle, stacking the returned rows in
order while the state threads through the calls.  The evolve action of the
concrete variant is the parameter `evolve`. -/
def cascadePoints {γ α : Type} (evolve : List (List γ) → ℤ → Option (List α × List (List γ))) :
    ℕ → List (List γ) → ℤ → Option (List (List α) × List (List γ))
  | 0, s, _ => some ([], s)
  | np + 1, s, gno =>
      (evolve s (gno - 1)).bind fun os =>
        (cascadePoints evolve np os.2 gno).map fun rs => (os.1 :: rs.1, rs.2)

/-- Embeds `ChaosGenerator.chaosPoints`, branch `gno != 0` with `cascade=False`
(line 71): a single vectorized `self.evolve(gno-1)`. -/
def directPoints {γ α : Type} (evolve : List (List γ) → ℤ → Option (List α × List (List γ)))
    (s : List (List γ)) (gno : ℤ) : Option (List α × List (List γ)) :=
  evolve s (gno - 1)

/-- Sequential execution of the `gno != 0` branch over a list of generator
numbers, threading the mutated State Container left to right, as the list
comprehension `[self.chaosPoints(i+1) for i in range(self.gens)]` does. -/
def producePointsSeq {γ β : Type} (prod1 : List (List γ) → ℤ → Option (β × List (List γ))) :
    List ℤ → List (List γ) → Option (List β × List (List γ))
  | [], s => some ([], s)
  | g :: gs, s =>
      (prod1 s g).bind fun os =>
        (producePointsSeq prod1 gs os.2).map fun rs => (os.1 :: rs.1, rs.2)

/-- Embeds `ChaosGenerator.chaosPoints`, branch `gno == 0` (lines 74-76):
`np.array([self.chaosPoints(i+1) for i in range(self.gens)])` — the
`gno != 0` branch (`prod1`) run at `gno = 1, ..., gens` in order. -/
def allPoints {γ β : Type} (prod1 : List (List γ) → ℤ → Option (β × List (List γ)))
    (gens : ℕ) (s : List (List γ)) : Option (List β × List (List γ)) :=
  producePointsSeq prod1 ((List.range gens).map fun i => Int.ofNat i + 1) s

/-! ## Basic lemmas about the embedding -/

lemma pyBase_coe (n g : ℕ) : pyBase n (g : ℤ) = (g : ℤ) := by
  unfold pyBase
  rw [if_neg (by omega)]

lemma pyIdx_coe {n g : ℕ} (h : g < n) : pyIdx n (g : ℤ) = some g := by
  unfold pyIdx
  rw [pyBase_coe]
  rw [if_pos ⟨Int.natCast_nonneg g, by exact_mod_cast h⟩]
  simp

lemma evolveCellwise_coe {γ α : Type} (ret : γ → α) (upd : γ → γ)
    (s : List (List γ)) (g : ℕ) (h : g < s.length) :
    evolveCellwise ret upd s (g : ℤ) =
      some ((s.getD g []).map ret, s.set g ((s.getD g []).map upd)) := by
  unfold evolveCellwise
  rw [pyIdx_coe h]
  rfl

lemma getD_set_self {γ : Type} (s : List γ) (g : ℕ) (h : g < s.length)
    (v d : γ) : (s.set g v).getD g d = v := by
  rw [List.getD_eq_getElem?_getD, List.getElem?_set_self (by simpa using h)]
  rfl

lemma getD_set_ne {γ : Type} (s : List γ) (g j : ℕ) (hne : j ≠ g) (v : γ)
    (d : γ) : (s.set g v).getD j d = s.getD j d := by
  rw [List.getD_eq_getElem?_getD, List.getElem?_set_ne (Ne.symm hne),
    List.getD_eq_getElem?_getD]

lemma set_getD_self {γ : Type} (s : List γ) (g : ℕ) (h : g < s.length)
    (d : γ) : s.set g (s.getD g d) = s := by
  apply List.ext_getElem?
  intro i
  by_cases hig : i = g
  · subst hig
    rw [List.getElem?_set_self (by simpa using h), List.getD_eq_getElem?_getD,
      List.getElem?_eq_getElem h]
    rfl
  · rw [List.getElem?_set_ne (Ne.symm hig)]

lemma map_ne_self_of_mem {γ : Type} (f : γ → γ) :
    ∀ (l : List γ) (x : γ), x ∈ l → f x ≠ x → l.map f ≠ l := by
  intro l
  induction l with
  | nil => intro x hx; simp at hx
  | cons a t ih =>
      intro x hx hfx he
      rw [List.map_cons, List.cons_eq_cons] at he
      rcases List.mem_cons.mp hx with hxa | hxt
      · exact hfx (hxa ▸ he.1)
      · exact ih x hxt hfx he.2

/-- Closed form of the cascade branch over any cellwise evolver: row `p` of
the produced stack observes the slot after `p` updates, and the final slot
has been updated `np` times. -/
lemma cascadePoints_cellwise {γ α : Type} (ret : γ → α) (upd : γ → γ) :
    ∀ (np : ℕ) (s : List (List γ)) (g : ℕ), g < s.length →
    cascadePoints (evolveCellwise ret upd) np s ((g : ℤ) + 1) =
      some ((List.range np).map fun p => (s.getD g []).map fun v => ret (upd^[p] v),
            s.set g ((s.getD g []).map fun v => upd^[np] v)) := by
  intro np
  induction np with
  | zero =>
      intro s g h
      simp only [cascadePoints, List.range_zero, List.map_nil]
      rw [show ((s.getD g []).map fun v => upd^[0] v) = s.getD g [] by
        simp [Function.iterate_zero]]
      rw [set_getD_self s g h]
  | succ np ih =>
      intro s g h
      have hsub : (g : ℤ) + 1 - 1 = (g : ℤ) := add_sub_cancel_right _ _
      simp only [cascadePoints, hsub, evolveCellwise_coe ret upd s g h,
        Option.some_bind]
      have hlen : g < (s.set g ((s.getD g []).map upd)).length := by
        simpa [List.length_set] using h
      rw [ih (s.set g ((s.getD g []).map upd)) g hlen]
      simp only [Option.map_some']
      have hslot : (s.set g ((s.getD g []).map upd)).getD g [] =
          (s.getD g []).map upd := getD_set_self s g h _ []
      rw [hslot, List.set_set, List.range_succ_eq_map]
      simp only [List.map_cons, List.map_map]
      rfl

/-- Every tracked entry of a scalar-map State Container lies in `[0, 1]`. -/
def inUnit (s : List (List ℚ)) : Prop := ∀ l ∈ s, ∀ x ∈ l, 0 ≤ x ∧ x ≤ 1

lemma pyIdx_lt {n : ℕ} {i : ℤ} {g : ℕ} (h : pyIdx n i = some g) : g < n := by
  unfold pyIdx at h
  split at h
  · rename_i hj
    obtain ⟨hj0, hjn⟩ := hj
    injection h with h
    omega
  · exact absurd h (by simp)

lemma pyIdx_some_iff {n : ℕ} {i : ℤ} {g : ℕ} :
    pyIdx n i = some g ↔ 0 ≤ pyBase n i ∧ pyBase n i < n ∧ (g : ℤ) = pyBase n i := by
  unfold pyIdx
  split
  · rename_i hj
    simp only [Option.some.injEq]
    constructor
    · intro h
      exact ⟨hj.1, hj.2, by rw [← h]; exact Int.toNat_of_nonneg hj.1⟩
    · intro ⟨_, _, hg⟩
      omega
  · rename_i hj
    simp only [false_iff, reduceCtorEq]
    intro ⟨h1, h2, _⟩
    exact hj ⟨h1, h2⟩

lemma logisticMap_unit (x : ℚ) (h0 : 0 ≤ x) (h1 : x ≤ 1) :
    0 ≤ logisticMap 4 x ∧ logisticMap 4 x ≤ 1 := by
  unfold logisticMap
  constructor
  · nlinarith
  · nlinarith [sq_nonneg (2 * x - 1)]

lemma tentMap_unit (x : ℚ) (h0 : 0 ≤ x) (h1 : x ≤ 1) :
    0 ≤ tentMap (49999/100000) x ∧ tentMap (49999/100000) x ≤ 1 := by
  unfold tentMap
  split
  · rename_i hx
    constructor
    · positivity
    · rw [div_le_one (by norm_num)]
      exact hx
  · rename_i hx
    push_neg at hx
    constructor
    · apply div_nonneg <;> linarith
    · rw [div_le_one (by norm_num)]
      linarith

lemma inUnit_evolve_cellwise {f : ℚ → ℚ}
    (hf : ∀ x, 0 ≤ x → x ≤ 1 → 0 ≤ f x ∧ f x ≤ 1)
    (s : List (List ℚ)) (hs : inUnit s) (gind : ℤ) :
    ∀ ret s', evolveCellwise id f s gind = some (ret, s') →
      (∀ x ∈ ret, 0 ≤ x ∧ x ≤ 1) ∧ inUnit s' := by
  intro ret s' hev
  unfold evolveCellwise at hev
  cases hpy : pyIdx s.length gind with
  | none => rw [hpy] at hev; exact absurd hev (by simp)
  | some g =>
      rw [hpy] at hev
      simp only [Option.map_some', Option.some.injEq, Prod.mk.injEq] at hev
      obtain ⟨h1, h2⟩ := hev
      have hg : g < s.length := pyIdx_lt hpy
      have hslot : s.getD g [] ∈ s := by
        rw [List.getD_eq_getElem _ _ hg]
        exact List.getElem_mem hg
      constructor
      · intro x hx
        rw [← h1, List.map_id] at hx
        exact hs _ hslot x hx
      · intro l hl
        rw [← h2] at hl
        rcases List.mem_or_eq_of_mem_set hl with hmem | heq
        · exact hs l hmem
        · intro x hx
          rw [heq] at hx
          obtain ⟨y, hy, hyx⟩ := List.mem_map.mp hx
          obtain ⟨hy0, hy1⟩ := hs _ hslot y hy
          exact hyx ▸ hf y hy0 hy1

lemma inUnit_cascade {f : ℚ → ℚ}
    (hf : ∀ x, 0 ≤ x → x ≤ 1 → 0 ≤ f x ∧ f x ≤ 1) :
    ∀ (np : ℕ) (s : List (List ℚ)), inUnit s → ∀ (gno : ℤ) rows s',
      cascadePoints (evolveCellwise id f) np s gno = some (rows, s') →
      (∀ row ∈ rows, ∀ x ∈ row, 0 ≤ x ∧ x ≤ 1) ∧ inUnit s' := by
  intro np
  induction np with
  | zero =>
      intro s hs gno rows s' hev
      unfold cascadePoints at hev
      simp only [Option.some.injEq, Prod.mk.injEq] at hev
      obtain ⟨h1, h2⟩ := hev
      exact ⟨by rw [← h1]; simp, h2 ▸ hs⟩
  | succ np ih =>
      intro s hs gno rows s' hev
      unfold cascadePoints at hev
      cases he : evolveCellwise id f s (gno - 1) with
      | none => rw [he] at hev; exact absurd hev (by simp)
      | some os =>
          rw [he, Option.some_bind] at hev
          cases hc : cascadePoints (evolveCellwise id f) np os.2 gno with
          | none => rw [hc] at hev; exact absurd hev (by simp)
          | some rs =>
              rw [hc, Option.map_some'] at hev
              simp only [Option.some.injEq, Prod.mk.injEq] at hev
              obtain ⟨h1, h2⟩ := hev
              obtain ⟨hret, hs1⟩ := inUnit_evolve_cellwise hf s hs (gno - 1) os.1 os.2 (by rw [he])
              obtain ⟨hrows, hs2⟩ := ih os.2 hs1 gno rs.1 rs.2 (by rw [hc])
              refine ⟨?_, h2 ▸ hs2⟩
              intro row hrow
              rw [← h1] at hrow
              rcases List.mem_cons.mp hrow with hr1 | hr2
              · exact hr1 ▸ hret
              · exact hrows row hr2

/-! ## Claim theorems -/

/-- C4: for every Logistic generator and every slot index `g`, `evolve g`
returns exactly the pre-update state of slot `g` and leaves slot `g` equal
to `r*x*(1-x)` applied elementwise (so `4x(1-x)` for the default `r = 4`). -/
theorem logistic_evolve_pre_value_and_update (r : ℚ) (s : List (List ℚ))
    (g : ℕ) (h : g < s.length) :
    logisticEvolve r s (g : ℤ) =
      some (s.getD g [], s.set g ((s.getD g []).map fun x => r * x * (1 - x))) := by
  rw [logisticEvolve, evolveCellwise_coe _ _ s g h, List.map_id]
  rfl

theorem logistic_evolve_pre_value_and_update_witness :
    logisticEvolve 4 [[(1 : ℚ)/2]] ((0 : ℕ) : ℤ) =
      some ([(1 : ℚ)/2], [[(1 : ℚ)]]) := by
  rw [logistic_evolve_pre_value_and_update 4 [[(1 : ℚ)/2]] 0 (by decide)]
  norm_num [List.getD_cons_zero]

/-- C5: for every Tent generator and every slot index `g`, `evolve g`
returns the pre-update state and updates each entry `x` of slot `g` to
`x/mu` when `x ≤ mu` and `(1-x)/(1-mu)` when `x > mu`; an entry exactly
equal to `mu` maps to `mu/mu = 1`. -/
theorem tent_evolve_pre_value_and_update (mu : ℚ) (hmu : mu ≠ 0)
    (s : List (List ℚ)) (g : ℕ) (h : g < s.length) :
    tentEvolve mu s (g : ℤ) =
      some (s.getD g [],
        s.set g ((s.getD g []).map fun x =>
          if x ≤ mu then x / mu else (1 - x) / (1 - mu)))
    ∧ tentMap mu mu = 1 := by
  constructor
  · rw [tentEvolve, evolveCellwise_coe _ _ s g h, List.map_id]
    rfl
  · simp [tentMap, div_self hmu]

theorem tent_evolve_pre_value_and_update_witness :
    tentEvolve (49999/100000) [[(49999 : ℚ)/100000]] ((0 : ℕ) : ℤ) =
      some ([(49999 : ℚ)/100000], [[(1 : ℚ)]]) := by
  rw [(tent_evolve_pre_value_and_update (49999/100000) (by norm_num)
    [[(49999 : ℚ)/100000]] 0 (by decide)).1]
  norm_num [List.getD_cons_zero]

/-- C8: for each variant (Logistic, Tent, Lorenz), one call to `evolve g`
mutates only slot `g` of the State Container — every other slot `j ≠ g` is
unchanged — and the returned value is the pre-mutation observation of
slot `g`. -/
theorem evolve_frame_only_slot (r mu mn mx : ℚ) (c : Fin 3)
    (step : Vec3 → Vec3) (s : List (List ℚ)) (t : List (List Vec3)) (g : ℕ)
    (hs : g < s.length) (ht : g < t.length) :
    (∀ ret s', logisticEvolve r s (g : ℤ) = some (ret, s') →
      ret = s.getD g [] ∧ ∀ j, j ≠ g → s'.getD j [] = s.getD j []) ∧
    (∀ ret s', tentEvolve mu s (g : ℤ) = some (ret, s') →
      ret = s.getD g [] ∧ ∀ j, j ≠ g → s'.getD j [] = s.getD j []) ∧
    (∀ ret t', lorenzEvolve step mn mx c t (g : ℤ) = some (ret, t') →
      ret = (t.getD g []).map (fun v => lorenzScalar mn mx (comp3 c v)) ∧
      ∀ j, j ≠ g → t'.getD j [] = t.getD j []) := by
  refine ⟨?_, ?_, ?_⟩ <;> intro ret s' hev
  · rw [logisticEvolve, evolveCellwise_coe _ _ s g hs] at hev
    simp only [Option.some.injEq, Prod.mk.injEq] at hev
    obtain ⟨h1, h2⟩ := hev
    refine ⟨by rw [← h1, List.map_id], ?_⟩
    intro j hj
    rw [← h2]
    exact getD_set_ne s g j hj _ []
  · rw [tentEvolve, evolveCellwise_coe _ _ s g hs] at hev
    simp only [Option.some.injEq, Prod.mk.injEq] at hev
    obtain ⟨h1, h2⟩ := hev
    refine ⟨by rw [← h1, List.map_id], ?_⟩
    intro j hj
    rw [← h2]
    exact getD_set_ne s g j hj _ []
  · rw [lorenzEvolve, evolveCellwise_coe _ _ t g ht] at hev
    simp only [Option.some.injEq, Prod.mk.injEq] at hev
    obtain ⟨h1, h2⟩ := hev
    refine ⟨h1.symm, ?_⟩
    intro j hj
    rw [← h2]
    exact getD_set_ne t g j hj _ []

theorem evolve_frame_only_slot_witness :
    ([[(1 : ℚ)], [(1 : ℚ)/3]] : List (List ℚ)).getD 1 [] =
      ([[(1 : ℚ)/2], [(1 : ℚ)/3]] : List (List ℚ)).getD 1 [] := by
  refine ((evolve_frame_only_slot 4 (1/2) 0 1 0 id
      [[(1 : ℚ)/2], [(1 : ℚ)/3]] [[((0 : ℚ), 0, 0)]] 0 (by decide) (by decide)).1
      [(1 : ℚ)/2] [[(1 : ℚ)], [(1 : ℚ)/3]] ?_).2 1 (by decide)
  simp [logisticEvolve, evolveCellwise, pyIdx, pyBase, logisticMap]
  norm_num

/-- C3: for the Logistic generator with `r = 4` and the Tent generator with
`mu = 0.49999`, a state whose entries all lie in `[0, 1]` keeps all entries
in `[0, 1]` after any `evolve` call, and every value produced by any number
of consecutive cascade steps lies in `[0, 1]`. -/
theorem logistic_tent_unit_interval_invariant (s : List (List ℚ))
    (hs : inUnit s) :
    (∀ (gind : ℤ) ret s', logisticEvolve 4 s gind = some (ret, s') →
      (∀ x ∈ ret, 0 ≤ x ∧ x ≤ 1) ∧ inUnit s') ∧
    (∀ (gind : ℤ) ret s', tentEvolve (49999/100000) s gind = some (ret, s') →
      (∀ x ∈ ret, 0 ≤ x ∧ x ≤ 1) ∧ inUnit s') ∧
    (∀ (np : ℕ) (gno : ℤ) rows s',
      cascadePoints (logisticEvolve 4) np s gno = some (rows, s') →
      (∀ row ∈ rows, ∀ x ∈ row, 0 ≤ x ∧ x ≤ 1) ∧ inUnit s') ∧
    (∀ (np : ℕ) (gno : ℤ) rows s',
      cascadePoints (tentEvolve (49999/100000)) np s gno = some (rows, s') →
      (∀ row ∈ rows, ∀ x ∈ row, 0 ≤ x ∧ x ≤ 1) ∧ inUnit s') := by
  refine ⟨?_, ?_, ?_, ?_⟩
  · intro gind ret s' hev
    exact inUnit_evolve_cellwise logisticMap_unit s hs gind ret s' hev
  · intro gind ret s' hev
    exact inUnit_evolve_cellwise tentMap_unit s hs gind ret s' hev
  · intro np gno rows s' hev
    exact inUnit_cascade logisticMap_unit np s hs gno rows s' hev
  · intro np gno rows s' hev
    exact inUnit_cascade tentMap_unit np s hs gno rows s' hev

theorem logistic_tent_unit_interval_invariant_witness :
    inUnit [[(1 : ℚ)], [(1 : ℚ)/3]] := by
  refine ((logistic_tent_unit_interval_invariant [[(1 : ℚ)/2], [(1 : ℚ)/3]]
      ?_).1 ((0 : ℕ) : ℤ) [(1 : ℚ)/2] [[(1 : ℚ)], [(1 : ℚ)/3]] ?_).2
  · intro l hl x hx
    simp only [List.mem_cons, List.not_mem_nil, or_false] at hl
    rcases hl with h | h <;> subst h <;>
      simp only [List.mem_cons, List.not_mem_nil, or_false] at hx <;>
      subst hx <;> norm_num
  · simp [logisticEvolve, evolveCellwise, pyIdx, pyBase, logisticMap]
    norm_num

lemma lorenzScalar_char (mn mx st : ℚ) (hden : mx - mn ≠ 0) :
    lorenzScalar mn mx st =
      Flt.val (if (st - mn) / (mx - mn) < 0 then lorEps
        else if 1 < (st - mn) / (mx - mn) then 1 - lorEps
        else (st - mn) / (mx - mn)) := by
  unfold lorenzScalar fltDiv
  rw [if_neg hden]
  by_cases h0 : (st - mn) / (mx - mn) < 0
  · norm_num [fltLtZero, fltGtOne, h0, lorEps]
  · by_cases h1 : 1 < (st - mn) / (mx - mn)
    · norm_num [fltLtZero, fltGtOne, h0, h1]
    · norm_num [fltLtZero, fltGtOne, h0, h1]

lemma lorenzScalar_unit (mn mx st : ℚ) (h : mn < mx) :
    ∃ v, lorenzScalar mn mx st = Flt.val v ∧ 0 ≤ v ∧ v ≤ 1 := by
  have hden : mx - mn ≠ 0 := sub_ne_zero.mpr (ne_of_gt h)
  refine ⟨_, lorenzScalar_char mn mx st hden, ?_, ?_⟩ <;>
    by_cases h0 : (st - mn) / (mx - mn) < 0
  · rw [if_pos h0]; norm_num [lorEps]
  · rw [if_neg h0]
    by_cases h1 : 1 < (st - mn) / (mx - mn)
    · rw [if_pos h1]; norm_num [lorEps]
    · rw [if_neg h1]; linarith
  · rw [if_pos h0]; norm_num [lorEps]
  · rw [if_neg h0]
    by_cases h1 : 1 < (st - mn) / (mx - mn)
    · rw [if_pos h1]; norm_num [lorEps]
    · rw [if_neg h1]; linarith

/-- C1 (amended): under nondegenerate cached limits `mn < mx`, every scalar
the Lorenz `evolve` returns is a finite value in `[0, 1]`: a normalized
value `< 0` is replaced by `eps`, one `> 1` by `1 - eps`, and one already in
`[0, 1]` — including exactly `0` and exactly `1` — is passed through
unclamped. -/
theorem lorenz_values_clamped_to_unit (mn mx st : ℚ) (h : mn < mx) :
    lorenzScalar mn mx st =
      Flt.val (if (st - mn) / (mx - mn) < 0 then lorEps
        else if 1 < (st - mn) / (mx - mn) then 1 - lorEps
        else (st - mn) / (mx - mn)) ∧
    (∃ v, lorenzScalar mn mx st = Flt.val v ∧ 0 ≤ v ∧ v ≤ 1) ∧
    (∀ (step : Vec3 → Vec3) (c : Fin 3) (t : List (List Vec3)) (gind : ℤ)
      ret t', lorenzEvolve step mn mx c t gind = some (ret, t') →
      ∀ w ∈ ret, ∃ v, w = Flt.val v ∧ 0 ≤ v ∧ v ≤ 1) := by
  have hden : mx - mn ≠ 0 := sub_ne_zero.mpr (ne_of_gt h)
  refine ⟨lorenzScalar_char mn mx st hden, lorenzScalar_unit mn mx st h, ?_⟩
  intro step c t gind ret t' hev
  unfold lorenzEvolve evolveCellwise at hev
  cases hpy : pyIdx t.length gind with
  | none => rw [hpy] at hev; exact absurd hev (by simp)
  | some g =>
      rw [hpy, Option.map_some'] at hev
      simp only [Option.some.injEq, Prod.mk.injEq] at hev
      obtain ⟨h1, _⟩ := hev
      intro w hw
      rw [← h1] at hw
      obtain ⟨v0, _, hv0⟩ := List.mem_map.mp hw
      obtain ⟨v, hv, hv1, hv2⟩ := lorenzScalar_unit mn mx (comp3 c v0) h
      exact ⟨v, hv0 ▸ hv, hv1, hv2⟩

theorem lorenz_values_clamped_to_unit_witness :
    ∃ v, lorenzScalar 0 1 (1/2) = Flt.val v ∧ 0 ≤ v ∧ v ≤ 1 :=
  (lorenz_values_clamped_to_unit 0 1 (1/2) (by norm_num)).2.1

/-- C1 counterexample: with nondegenerate limits `(0, 1)` and a state whose
exported coordinate equals the cached minimum, `Lorenz.evolve` returns
exactly `0`, which is strictly below `eps` — the produced value is not
confined to `[eps, 1-eps]`. -/
theorem lorenz_value_exactly_zero_cex :
    lorenzEvolve id 0 1 0 [[((0 : ℚ), 0, 0)]] ((0 : ℕ) : ℤ) =
      some ([Flt.val 0], [[((0 : ℚ), 0, 0)]]) ∧ ¬ (lorEps ≤ (0 : ℚ)) := by
  constructor
  · rw [lorenzEvolve, evolveCellwise_coe _ _ _ 0 (by norm_num)]
    simp only [List.getD_cons_zero, List.map_cons, List.map_nil, List.map_id,
      id_eq, List.set_cons_zero, Option.some.injEq, Prod.mk.injEq]
    constructor
    · rw [show comp3 0 ((0 : ℚ), 0, 0) = (0 : ℚ) from rfl,
        lorenzScalar_char 0 1 0 (by norm_num)]
      norm_num
    · trivial
  · norm_num [lorEps]

/-- C2: with a degenerate cached bounding box (`min = max = 5`) the code
performs the division by zero anyway: a state at the common bound yields
`0/0 = NaN`, which passes both clamps unchanged and is returned as a value;
a state above the bound yields `+Inf`, silently clamped to `1 - eps`; one
below yields `-Inf`, silently clamped to `eps`.  No configuration error is
signaled anywhere. -/
theorem lorenz_degenerate_limits_silent_nan :
    lorenzEvolve id 5 5 0 [[((5 : ℚ), 5, 5)]] ((0 : ℕ) : ℤ) =
      some ([Flt.nan], [[((5 : ℚ), 5, 5)]]) ∧
    lorenzScalar 5 5 6 = Flt.val (1 - lorEps) ∧
    lorenzScalar 5 5 4 = Flt.val lorEps := by
  refine ⟨?_, ?_, ?_⟩
  · rw [lorenzEvolve, evolveCellwise_coe _ _ _ 0 (by norm_num)]
    simp only [List.getD_cons_zero, List.map_cons, List.map_nil, List.map_id,
      id_eq, List.set_cons_zero, Option.some.injEq, Prod.mk.injEq]
    constructor
    · rw [show comp3 0 ((5 : ℚ), 5, 5) = (5 : ℚ) from rfl]
      unfold lorenzScalar fltDiv
      norm_num [fltLtZero, fltGtOne]
    · trivial
  · unfold lorenzScalar fltDiv
    norm_num [fltLtZero, fltGtOne, lorEps]
  · unfold lorenzScalar fltDiv
    norm_num [fltLtZero, fltGtOne, lorEps]

lemma evolveCellwise_length {γ α : Type} {ret : γ → α} {upd : γ → γ}
    {s : List (List γ)} {gind : ℤ} {o : List α} {s' : List (List γ)}
    (h : evolveCellwise ret upd s gind = some (o, s')) :
    s'.length = s.length := by
  unfold evolveCellwise at h
  cases hpy : pyIdx s.length gind with
  | none => rw [hpy] at h; exact absurd h (by simp)
  | some g =>
      rw [hpy, Option.map_some'] at h
      simp only [Option.some.injEq, Prod.mk.injEq] at h
      rw [← h.2, List.length_set]

lemma pyIdx_neg_alias {n : ℕ} {i : ℤ} (hneg : i < 0) (hlo : 0 ≤ i + n) :
    pyIdx n i = pyIdx n (i + n) := by
  unfold pyIdx pyBase
  rw [if_pos hneg, if_neg (by omega : ¬ (i + (n : ℤ) < 0))]

lemma cascadePoints_congr_idx {γ α : Type} (ret : γ → α) (upd : γ → γ)
    (i1 i2 : ℤ) :
    ∀ (np : ℕ) (s : List (List γ)),
      pyIdx s.length (i1 - 1) = pyIdx s.length (i2 - 1) →
      cascadePoints (evolveCellwise ret upd) np s i1 =
        cascadePoints (evolveCellwise ret upd) np s i2 := by
  intro np
  induction np with
  | zero => intro s _; rfl
  | succ np ih =>
      intro s hpy
      have hev : evolveCellwise ret upd s (i1 - 1) =
          evolveCellwise ret upd s (i2 - 1) := by
        unfold evolveCellwise
        rw [hpy]
      simp only [cascadePoints, hev]
      cases he : evolveCellwise ret upd s (i2 - 1) with
      | none => rfl
      | some os =>
          simp only [Option.some_bind]
          rw [ih os.2 (by rw [evolveCellwise_length he]; exact hpy)]

/-- C9 counterexample: with the Logistic map (`r = 4`) and a State Container
whose first slot holds the fixed point `0`, a `produce(1)` call between two
snapshots changes nothing: the post-produce state equals the pre-produce
state, so the two snapshots are equal despite the intervening produce. -/
theorem snapshot_unchanged_by_produce_cex :
    cascadePoints (logisticEvolve 4) 1 [[(0 : ℚ)], [(0 : ℚ)]] 1 =
      some ([[(0 : ℚ)]], [[(0 : ℚ)], [(0 : ℚ)]]) ∧
    getCgens [[(0 : ℚ)], [(0 : ℚ)]] = [[(0 : ℚ)], [(0 : ℚ)]] := by
  constructor
  · have h0 : (1 : ℤ) - 1 = ((0 : ℕ) : ℤ) := by norm_num
    simp only [cascadePoints, h0, logisticEvolve,
      evolveCellwise_coe id (logisticMap 4) [[(0 : ℚ)], [(0 : ℚ)]] 0 (by norm_num),
      Option.some_bind, Option.map_some']
    norm_num [logisticMap, List.getD_cons_zero]
  · rfl

/-- C9 (amended): snapshot (`getCgens`) is a pure copy — it never mutates,
so two snapshots with no intervening produce are equal — and a produce step
on a slot containing an entry that is not a fixed point of the map (for
Logistic `r = 4`: an entry outside `{0, 3/4}`) changes the State Container;
a slot consisting only of exact fixed points is left unchanged by produce. -/
theorem snapshot_copy_and_produce_nonfixed_changes (s : List (List ℚ))
    (g : ℕ) (h : g < s.length) (x : ℚ) (hx : x ∈ s.getD g [])
    (hfx : logisticMap 4 x ≠ x) :
    getCgens s = s ∧
    (∀ ret s', logisticEvolve 4 s (g : ℤ) = some (ret, s') →
      getCgens s' ≠ getCgens s) := by
  refine ⟨rfl, ?_⟩
  intro ret s' hev
  rw [logisticEvolve, evolveCellwise_coe _ _ s g h] at hev
  simp only [Option.some.injEq, Prod.mk.injEq] at hev
  obtain ⟨_, h2⟩ := hev
  rw [← h2]
  unfold getCgens
  intro he
  have hgd := congrArg (fun l => l.getD g ([] : List ℚ)) he
  simp only at hgd
  rw [getD_set_self s g h] at hgd
  exact map_ne_self_of_mem (logisticMap 4) (s.getD g []) x hx hfx hgd

theorem snapshot_copy_and_produce_nonfixed_changes_witness :
    getCgens [[(1 : ℚ)]] ≠ getCgens [[(1 : ℚ)/2]] := by
  refine (snapshot_copy_and_produce_nonfixed_changes [[(1 : ℚ)/2]] 0
    (by norm_num) (1/2) (by simp) (by norm_num [logisticMap])).2
    [(1 : ℚ)/2] [[(1 : ℚ)]] ?_
  rw [logisticEvolve, evolveCellwise_coe _ _ _ 0 (by norm_num)]
  norm_num [logisticMap, List.getD_cons_zero]

/-- C10 counterexample: with `gens = 2`, `produce(-2)` computes slot index
`-3`, which is out of numpy's negative-index range `[-2, 1]` for the
`(2, ...)`-shaped State Container, so the call fails with an `IndexError`
(`none`) instead of silently evolving some slot — "calling produce with a
negative index does not fail with an out-of-range error" is false in
general. -/
theorem produce_negative_index_error_cex :
    cascadePoints (logisticEvolve 4) 1 [[(1 : ℚ)/2], [(1 : ℚ)/3]] (-2) =
      none := by
  simp only [cascadePoints, logisticEvolve, evolveCellwise]
  rw [show pyIdx (List.length [[(1 : ℚ)/2], [(1 : ℚ)/3]]) (-2 - 1) = none from
    by norm_num [pyIdx, pyBase]]
  rfl

/-- C10 (amended): for a negative produce index `i` that stays within
numpy's negative-index range (`1 - gens ≤ i`), the slot lookup `i - 1` does
not fail: it resolves to the valid slot `gens + i - 1` — so `produce(-1)`
silently evolves and returns slot `gens - 2`, aliasing `produce(gens - 1)` —
while a more negative index (`i < 1 - gens`) raises an out-of-range
`IndexError`, as the counterexample shows. -/
theorem negative_index_aliases_valid_slot {γ α : Type} (ret : γ → α)
    (upd : γ → γ) (np : ℕ) (s : List (List γ)) (i : ℤ) (hneg : i < 0)
    (hlo : 1 - (s.length : ℤ) ≤ i) :
    (∃ g : ℕ, pyIdx s.length (i - 1) = some g ∧
      (g : ℤ) = (s.length : ℤ) + i - 1) ∧
    cascadePoints (evolveCellwise ret upd) np s i =
      cascadePoints (evolveCellwise ret upd) np s ((s.length : ℤ) + i) := by
  constructor
  · refine ⟨((s.length : ℤ) + i - 1).toNat, ?_, by omega⟩
    rw [pyIdx_some_iff]
    unfold pyBase
    rw [if_pos (by omega : i - 1 < 0)]
    refine ⟨by omega, by omega, by omega⟩
  · apply cascadePoints_congr_idx
    rw [pyIdx_neg_alias (by omega : i - 1 < 0) (by omega : 0 ≤ i - 1 + (s.length : ℤ))]
    congr 1
    omega

theorem negative_index_aliases_valid_slot_witness :
    (∃ g : ℕ, pyIdx 2 (-1 - 1) = some g ∧ (g : ℤ) = (2 : ℤ) + (-1) - 1) ∧
    cascadePoints (evolveCellwise id (logisticMap 4)) 1
        [[(1 : ℚ)/2], [(1 : ℚ)/3]] (-1) =
      cascadePoints (evolveCellwise id (logisticMap 4)) 1
        [[(1 : ℚ)/2], [(1 : ℚ)/3]] ((2 : ℤ) + (-1)) :=
  negative_index_aliases_valid_slot id (logisticMap 4) 1
    [[(1 : ℚ)/2], [(1 : ℚ)/3]] (-1) (by decide) (by decide)

lemma getD_range_map {β : Type} {np p : ℕ} (h : p < np) (f : ℕ → β) (d : β) :
    ((List.range np).map f).getD p d = f p := by
  rw [List.getD_eq_getElem?_getD, List.getElem?_map, List.getElem?_range h]
  rfl

lemma getD_map_lt {γ β : Type} (l : List γ) (f : γ → β) (d0 : β) (dg : γ)
    {d : ℕ} (h : d < l.length) :
    (l.map f).getD d d0 = f (l.getD d dg) := by
  rw [List.getD_eq_getElem _ _ (by simpa using h), List.getD_eq_getElem _ _ h,
    List.getElem_map]

/-- C6: in cascade mode, `produce(g+1)` returns an Owner-Shape stack (`np`
rows, each of the slot's width), and each row is the map's one-step update
of the previous row: for Logistic, `out[p+1][d] = r*out[p][d]*(1-out[p][d])`;
for the Lorenz flow, row `p` is the normalized image of the slot's 3-D
states advanced `p` solver steps, so row `p+1` reads the flow-update of the
states behind row `p`. -/
theorem cascade_rows_chained_by_update (r : ℚ) (np : ℕ) (s : List (List ℚ))
    (g : ℕ) (hg : g < s.length) (step : Vec3 → Vec3) (mn mx : ℚ) (c : Fin 3)
    (t : List (List Vec3)) (hgt : g < t.length) :
    (∃ rows s', cascadePoints (logisticEvolve r) np s ((g : ℤ) + 1) =
        some (rows, s') ∧
      rows.length = np ∧
      (∀ p, p < np → (rows.getD p []).length = (s.getD g []).length) ∧
      (∀ p d, p + 1 < np → d < (s.getD g []).length →
        (rows.getD (p + 1) []).getD d 0 =
          logisticMap r ((rows.getD p []).getD d 0))) ∧
    (∃ rows t', cascadePoints (lorenzEvolve step mn mx c) np t ((g : ℤ) + 1) =
        some (rows, t') ∧
      rows.length = np ∧
      ∀ p, p < np → rows.getD p [] =
        (t.getD g []).map fun v => lorenzScalar mn mx (comp3 c (step^[p] v))) := by
  constructor
  · have hc := cascadePoints_cellwise id (logisticMap r) np s g hg
    refine ⟨_, _, hc, by simp, ?_, ?_⟩
    · intro p hp
      rw [getD_range_map hp]
      simp
    · intro p d hp hd
      rw [getD_range_map hp, getD_range_map (by omega : p < np),
        getD_map_lt _ _ _ 0 hd, getD_map_lt _ _ _ 0 hd]
      simp only [id_eq]
      rw [Function.iterate_succ_apply' (logisticMap r) p]
  · have hc := cascadePoints_cellwise
      (fun v => lorenzScalar mn mx (comp3 c v)) step np t g hgt
    refine ⟨_, _, hc, by simp, ?_⟩
    intro p hp
    rw [getD_range_map hp]

theorem cascade_rows_chained_by_update_witness :
    ∃ rows s', cascadePoints (logisticEvolve 4) 2 [[(1 : ℚ)/2]] 1 =
        some (rows, s') ∧
      rows.length = 2 ∧
      (∀ p, p < 2 → (rows.getD p []).length =
        (([[(1 : ℚ)/2]] : List (List ℚ)).getD 0 []).length) ∧
      (∀ p d, p + 1 < 2 → d < (([[(1 : ℚ)/2]] : List (List ℚ)).getD 0 []).length →
        (rows.getD (p + 1) []).getD d 0 =
          logisticMap 4 ((rows.getD p []).getD d 0)) :=
  (cascade_rows_chained_by_update 4 2 [[(1 : ℚ)/2]] 0 (by norm_num)
    id 0 1 0 [[((0 : ℚ), 0, 0)]] (by norm_num)).1

lemma producePointsSeq_append {γ β : Type}
    (prod1 : List (List γ) → ℤ → Option (β × List (List γ))) :
    ∀ (l1 l2 : List ℤ) (s : List (List γ)),
      producePointsSeq prod1 (l1 ++ l2) s =
        (producePointsSeq prod1 l1 s).bind fun os =>
          (producePointsSeq prod1 l2 os.2).map fun rs => (os.1 ++ rs.1, rs.2) := by
  intro l1
  induction l1 with
  | nil =>
      intro l2 s
      simp only [List.nil_append, producePointsSeq, Option.some_bind]
      cases h : producePointsSeq prod1 l2 s with
      | none => rfl
      | some rs => rfl
  | cons g gs ih =>
      intro l2 s
      simp only [List.cons_append, producePointsSeq, List.append_eq]
      cases hp : prod1 s g with
      | none => rfl
      | some os =>
          simp only [Option.some_bind]
          rw [ih l2 os.2]
          cases h1 : producePointsSeq prod1 gs os.2 with
          | none => rfl
          | some rs =>
              simp only [Option.some_bind, Option.map_some']
              cases h2 : producePointsSeq prod1 l2 rs.2 with
              | none => rfl
              | some qs => simp [List.cons_append]

lemma producePointsSeq_length {γ β : Type}
    (prod1 : List (List γ) → ℤ → Option (β × List (List γ))) :
    ∀ (l : List ℤ) (s : List (List γ)) outs s',
      producePointsSeq prod1 l s = some (outs, s') →
      outs.length = l.length := by
  intro l
  induction l with
  | nil =>
      intro s outs s' h
      unfold producePointsSeq at h
      simp only [Option.some.injEq, Prod.mk.injEq] at h
      rw [← h.1]
      rfl
  | cons g gs ih =>
      intro s outs s' h
      unfold producePointsSeq at h
      cases hp : prod1 s g with
      | none => rw [hp] at h; exact absurd h (by simp)
      | some os =>
          rw [hp, Option.some_bind] at h
          cases h1 : producePointsSeq prod1 gs os.2 with
          | none => rw [h1] at h; exact absurd h (by simp)
          | some rs =>
              rw [h1, Option.map_some'] at h
              simp only [Option.some.injEq, Prod.mk.injEq] at h
              rw [← h.1, List.length_cons, ih os.2 rs.1 rs.2 (by rw [h1])]
              rfl

lemma seq_direct_cellwise {f : ℚ → ℚ} :
    ∀ (m a : ℕ) (t : List (List ℚ)), a + m = t.length →
      ∃ t2, producePointsSeq (directPoints (evolveCellwise id f))
          ((List.range m).map fun i => ((a + i : ℕ) : ℤ) + 1) t =
        some ((List.range m).map fun i => t.getD (a + i) [], t2) ∧
      t2.length = t.length ∧
      (∀ j, j < a → t2.getD j [] = t.getD j []) ∧
      (∀ j, a ≤ j → j < t.length → t2.getD j [] = (t.getD j []).map f) := by
  intro m
  induction m with
  | zero =>
      intro a t _
      exact ⟨t, by simp [producePointsSeq], rfl, fun j _ => rfl,
        fun j haj hjl => absurd hjl (by omega)⟩
  | succ m ih =>
      intro a t ha
      have halen : a < t.length := by omega
      have hidx : ((List.range (m + 1)).map fun i => ((a + i : ℕ) : ℤ) + 1) =
          (((a : ℕ) : ℤ) + 1) ::
            ((List.range m).map fun i => ((a + 1 + i : ℕ) : ℤ) + 1) := by
        rw [List.range_succ_eq_map, List.map_cons, List.map_map]
        refine List.cons_eq_cons.mpr ⟨by norm_num, ?_⟩
        apply List.map_congr_left
        intro i _
        simp only [Function.comp_apply]
        push_cast
        ring
      rw [hidx]
      have hdp : directPoints (evolveCellwise id f) t (((a : ℕ) : ℤ) + 1) =
          some (t.getD a [], t.set a ((t.getD a []).map f)) := by
        unfold directPoints
        rw [add_sub_cancel_right, evolveCellwise_coe _ _ t a halen, List.map_id]
      simp only [producePointsSeq, hdp, Option.some_bind]
      obtain ⟨t2, hseq, hlen, hlow, hhigh⟩ :=
        ih (a + 1) (t.set a ((t.getD a []).map f)) (by rw [List.length_set]; omega)
      rw [hseq, Option.map_some']
      refine ⟨t2, ?_, by rw [hlen, List.length_set], ?_, ?_⟩
      · simp only [Option.some.injEq, Prod.mk.injEq]
        refine ⟨?_, trivial⟩
        rw [List.range_succ_eq_map, List.map_cons, List.map_map]
        refine List.cons_eq_cons.mpr ⟨by rw [Nat.add_zero], ?_⟩
        apply List.map_congr_left
        intro i _
        simp only [Function.comp_apply]
        rw [show a + Nat.succ i = a + 1 + i from by omega,
          getD_set_ne t a (a + 1 + i) (by omega) _ []]
      · intro j hj
        rw [hlow j (by omega), getD_set_ne t a j (by omega) _ []]
      · intro j haj hjl
        by_cases hja : j = a
        · subst hja
          rw [hlow j (by omega), getD_set_self t j halen]
        · rw [hhigh j (by omega) (by rw [List.length_set]; exact hjl),
            getD_set_ne t a j (by omega) _ []]

lemma range_map_getD_self {γ : Type} (u : List (List γ)) :
    ((List.range u.length).map fun i => u.getD i []) = u := by
  apply List.ext_getElem
  · simp
  · intro i h1 h2
    simp only [List.getElem_map, List.getElem_range]
    rw [List.getD_eq_getElem u [] h2]

/-- C7: the operation `produce(0)` is the `gno != 0` branch run at `gno = 1, ..., gens` in
that order with the state threading through: appending one more generator
appends its produce to the stack; the stack has `gens` entries; and for the
non-cascade single-evolve branch it evolves each of the `gens` slots exactly
one cycle, returning the pre-update slots in slot order. -/
theorem produce_all_slots_in_order {γ β : Type}
    (prod1 : List (List γ) → ℤ → Option (β × List (List γ)))
    (gens : ℕ) (s : List (List γ)) (f : ℚ → ℚ) (u : List (List ℚ))
    (hu : u.length = gens) :
    (allPoints prod1 (gens + 1) s =
      (allPoints prod1 gens s).bind fun os =>
        (prod1 os.2 ((gens : ℤ) + 1)).map fun rr => (os.1 ++ [rr.1], rr.2)) ∧
    (∀ outs s', allPoints prod1 gens s = some (outs, s') →
      outs.length = gens) ∧
    (∃ u2, allPoints (directPoints (evolveCellwise id f)) gens u =
        some (u, u2) ∧
      u2.length = u.length ∧
      ∀ j, j < u.length → u2.getD j [] = (u.getD j []).map f) := by
  refine ⟨?_, ?_, ?_⟩
  · unfold allPoints
    rw [List.range_succ, List.map_append, producePointsSeq_append]
    cases h : producePointsSeq prod1
        ((List.range gens).map fun i => Int.ofNat i + 1) s with
    | none => rfl
    | some os =>
        simp only [Option.some_bind, List.map_cons, List.map_nil,
          producePointsSeq, Int.ofNat_eq_natCast]
        cases h2 : prod1 os.2 ((gens : ℤ) + 1) with
        | none => rfl
        | some rr => simp
  · intro outs s' h
    have hl := producePointsSeq_length prod1 _ s outs s' h
    simpa using hl
  · obtain ⟨t2, hseq, hlen, _, hhigh⟩ :=
      seq_direct_cellwise (f := f) gens 0 u (by omega)
    refine ⟨t2, ?_, hlen, fun j hj => hhigh j (by omega) hj⟩
    unfold allPoints
    rw [show ((List.range gens).map fun i => Int.ofNat i + 1) =
        ((List.range gens).map fun i => ((0 + i : ℕ) : ℤ) + 1) from by
      apply List.map_congr_left
      intro i _
      norm_num [Int.ofNat_eq_natCast]]
    rw [hseq]
    simp only [Option.some.injEq, Prod.mk.injEq]
    refine ⟨?_, trivial⟩
    rw [show ((List.range gens).map fun i => u.getD (0 + i) []) =
        ((List.range u.length).map fun i => u.getD i []) from by
      rw [hu]
      apply List.map_congr_left
      intro i _
      rw [Nat.zero_add]]
    exact range_map_getD_self u

theorem produce_all_slots_in_order_witness :
    ∃ u2, allPoints (directPoints (evolveCellwise id (logisticMap 4))) 2
        [[(1 : ℚ)/2], [(1 : ℚ)/3]] = some ([[(1 : ℚ)/2], [(1 : ℚ)/3]], u2) ∧
      u2.length = 2 ∧
      ∀ j, j < 2 → u2.getD j [] =
        (([[(1 : ℚ)/2], [(1 : ℚ)/3]] : List (List ℚ)).getD j []).map
          (logisticMap 4) :=
  (produce_all_slots_in_order (directPoints (evolveCellwise id (logisticMap 4)))
    2 [[(1 : ℚ)/2], [(1 : ℚ)/3]] (logisticMap 4)
    [[(1 : ℚ)/2], [(1 : ℚ)/3]] rfl).2.2

end ChaosGen
